import Mathlib

/-!
Shallow embedding of the waha-vps-orchestrator repository:
  * src/orchestrator/app.py — command parser, allowlist gate, job registry,
    log-buffer flush loop, webhook exec dispatch, completion handler;
  * src/runner/runner.py — allowlist re-check and the rejection path of
    `exec_and_stream`.

Python strings are modelled as Lean `String`/`List Char`; Python dicts that
the code mutates (JOBS, LOG_BUFFERS, LAST_SEND_TS) are modelled as insertion
ordered association lists with dict-style `get`/assignment; time is modelled
as `Int` seconds (the claims never depend on fractional times).  Regular
expression searches in `parse_command` are modelled by direct leftmost-match
scanning functions, specialised to the concrete patterns in the source.
-/

namespace Waha

/-- Python `str.strip()` whitespace characters (ASCII range; the claims never
involve non-ASCII whitespace).  Also the set matched by the regex class. -/
def isPyWs (c : Char) : Bool :=
  c = ' ' || c = '\t' || c = '\n' || c = '\r' || c = Char.ofNat 11 || c = Char.ofNat 12

/-- Remove trailing characters satisfying `w` (right-hand half of
Python `str.strip`). -/
def stripBackBy (w : Char → Bool) : List Char → List Char
  | [] => []
  | c :: cs =>
    match stripBackBy w cs with
    | [] => if w c then [] else [c]
    | r => c :: r

/-- Python `str.strip()` with a character class: drop leading and trailing
characters satisfying `w`. -/
def stripBy (w : Char → Bool) (l : List Char) : List Char :=
  stripBackBy w (l.dropWhile w)

/-- Python `str.strip()` on text. -/
def pyStrip (l : List Char) : List Char := stripBy isPyWs l

/-- Python `str.lower()` restricted to ASCII (sufficient here: no non-ASCII
character lowercases to any character of the command keywords). -/
def lowerChar (c : Char) : Char :=
  if 'A' ≤ c ∧ c ≤ 'Z' then Char.ofNat (c.toNat + 32) else c

def lowerL (l : List Char) : List Char := l.map lowerChar

/-- `partition(" ")`, first component: the text before the first space. -/
def spaceHead (l : List Char) : List Char := l.takeWhile (fun c => c != ' ')

/-- `partition(" ")`, last component: the text after the first space
(empty when there is no space). -/
def spaceTail (l : List Char) : List Char := (l.dropWhile (fun c => c != ' ')).drop 1

/-- `text.strip().split()[0]`: the first whitespace-delimited token. -/
def firstTok (l : List Char) : List Char :=
  (l.dropWhile isPyWs).takeWhile (fun c => !isPyWs c)

/-- Does `l` start with `pat`? -/
def startsWithL : List Char → List Char → Bool
  | _, [] => true
  | [], _ :: _ => false
  | c :: cs, p :: ps => c = p && startsWithL cs ps

/-- Does `pat` occur as a contiguous substring of `l`? -/
def hasSubL (pat : List Char) : List Char → Bool
  | [] => pat.isEmpty
  | c :: rest => startsWithL (c :: rest) pat || hasSubL pat rest

/-- Model of `re.search(r"host=([^\s]+)", s)`: the capture at the leftmost
position where `host=` is followed by at least one non-whitespace character;
the capture is the maximal non-whitespace run. -/
def findHost : List Char → Option (List Char)
  | [] => none
  | c :: rest =>
    if startsWithL (c :: rest) "host=".data then
      let tok := ((c :: rest).drop 5).takeWhile (fun ch => !isPyWs ch)
      if tok.isEmpty then findHost rest else some tok
    else findHost rest

/-- `$` of a Python regex without MULTILINE: matches at the end of the
string or just before a newline that is the last character. -/
def atDollar : List Char → Bool
  | [] => true
  | [c] => c = '\n'
  | _ => false

/-- A `cmd=` capture: either the quoted alternative `"([^"]*)"` (group 2 of
the source regex) or the raw alternative `\S.*` (group 1). -/
inductive CmdCap
  | quoted (content : List Char)
  | raw (content : List Char)
  deriving DecidableEq

/-- First alternative of `cmd=("([^"]*)"|\S.*)$` after `cmd=`: a double
quote, a maximal run of non-quote characters, a closing quote, then `$`. -/
def tryQuoted (after : List Char) : Option (List Char) :=
  match after with
  | '"' :: rest =>
    let content := rest.takeWhile (fun ch => ch != '"')
    match rest.drop content.length with
    | '"' :: rest2 => if atDollar rest2 then some content else none
    | _ => none
  | _ => none

/-- Second alternative `\S.*$` after `cmd=`: a non-whitespace character,
then `.`\* (which cannot cross a newline), then `$`. -/
def tryRaw (after : List Char) : Option (List Char) :=
  match after with
  | [] => none
  | c :: rest =>
    if isPyWs c then none
    else
      let content := rest.takeWhile (fun ch => ch != '\n')
      if atDollar (rest.drop content.length) then some (c :: content) else none

/-- Model of `re.search(r"cmd=(\"([^\"]*)\"|\S.*)$", s)`: leftmost position
where `cmd=` is followed by one of the two alternatives (quoted preferred). -/
def findCmd : List Char → Option CmdCap
  | [] => none
  | c :: rest =>
    if startsWithL (c :: rest) "cmd=".data then
      match tryQuoted ((c :: rest).drop 4) with
      | some content => some (.quoted content)
      | none =>
        match tryRaw ((c :: rest).drop 4) with
        | some content => some (.raw content)
        | none => findCmd rest
    else findCmd rest

/-- `\s+"([^"]+)"` — one or more whitespace characters, then a nonempty
double-quoted capture (no end anchor).  Shared tail of both alternatives of
the `/run` prompt regex. -/
def runQuotedTail (rest : List Char) : Option (List Char) :=
  let ws := rest.takeWhile isPyWs
  if ws.isEmpty then none
  else
    match rest.drop ws.length with
    | '"' :: r2 =>
      let content := r2.takeWhile (fun ch => ch != '"')
      if content.isEmpty then none
      else
        match r2.drop content.length with
        | '"' :: _ => some content
        | _ => none
    | _ => none

/-- The optional-group path of the `/run` regex: `\s+host=[^\s]+` then the
quoted tail. -/
def runHostPath (rest : List Char) : Option (List Char) :=
  let ws1 := rest.takeWhile isPyWs
  if ws1.isEmpty then none
  else
    let r1 := rest.drop ws1.length
    if startsWithL r1 "host=".data then
      let tok := (r1.drop 5).takeWhile (fun ch => !isPyWs ch)
      if tok.isEmpty then none
      else runQuotedTail ((r1.drop 5).drop tok.length)
    else none

/-- Model of `re.search(r"/run(?:\s+host=[^\s]+)?\s+\"([^\"]+)\"", s)`:
leftmost occurrence of `/run` whose continuation matches, the optional
`host=` group being tried first. -/
def findRun : List Char → Option (List Char)
  | [] => none
  | c :: rest =>
    if startsWithL (c :: rest) "/run".data then
      match runHostPath ((c :: rest).drop 4) with
      | some p => some p
      | none =>
        match runQuotedTail ((c :: rest).drop 4) with
        | some p => some p
        | none => findRun rest
    else findRun rest

/-- Model of `re.sub(r"/run", "", s, count=1)`: delete the first occurrence
of `/run`. -/
def removeFirstRun : List Char → List Char
  | [] => []
  | c :: rest =>
    if startsWithL (c :: rest) "/run".data then (c :: rest).drop 4
    else c :: removeFirstRun rest

/-- Model of `re.sub(r"host=[^\s]+", "", rest)`: delete every leftmost
non-overlapping match of `host=` followed by a maximal nonempty run of
non-whitespace characters. -/
def removeHostTokens : List Char → List Char
  | [] => []
  | c :: rest =>
    if startsWithL (c :: rest) "host=".data then
      let tok := ((c :: rest).drop 5).takeWhile (fun ch => !isPyWs ch)
      if tok.isEmpty then c :: removeHostTokens rest
      else removeHostTokens (((c :: rest).drop 5).drop tok.length)
    else c :: removeHostTokens rest
  termination_by l => l.length
  decreasing_by
    all_goals (simp only [List.length_drop, List.length_cons]; omega)

/-- The typed command returned by `parse_command`. -/
inductive Command
  | noop
  | hosts
  | logs (jobId : String)
  | stop (jobId : String)
  | exec (host : String) (cmd : Option String)
  | run (host : String) (prompt : String)
  deriving DecidableEq

/-- Embedding of `parse_command` (src/orchestrator/app.py lines 68-108). -/
def parse_command (text : String) : Command :=
  let s := pyStrip text.data
  if s.isEmpty then .noop
  else
    let head := lowerL (spaceHead s)
    let tail := spaceTail s
    if head = "/hosts".data then .hosts
    else if head = "/logs".data then
      if (pyStrip tail).isEmpty then .noop else .logs ⟨firstTok tail⟩
    else if head = "/stop".data then
      if (pyStrip tail).isEmpty then .noop else .stop ⟨firstTok tail⟩
    else if head = "/exec".data then
      let host : List Char := (findHost s).getD "dev".data
      let cmd : Option String :=
        (findCmd s).map fun cap =>
          match cap with
          | .quoted content => ⟨content⟩
          | .raw content => ⟨content⟩
      .exec ⟨host⟩ cmd
    else if head = "/run".data then
      let host : List Char := (findHost s).getD "dev".data
      match findRun s with
      | some p => .run ⟨host⟩ ⟨p⟩
      | none => .run ⟨host⟩ ⟨pyStrip (removeHostTokens (removeFirstRun s))⟩
    else .noop

/-! ### Allowlist gate (src/orchestrator/app.py lines 111-113 and
src/runner/runner.py lines 12-18; both read the same default) -/

/-- The default `ALLOWLIST` environment value
`"cc cookiecutter git gh pnpm npm node python uv pip pytest supabase docker"`,
split on whitespace into a set of executable names. -/
def ALLOW : List String :=
  ["cc", "cookiecutter", "git", "gh", "pnpm", "npm", "node", "python",
   "uv", "pip", "pytest", "supabase", "docker"]

/-- `allowlisted(cmd)`: `bool(cmd) and cmd[0] in allow`. -/
def allowlisted (cmd : List String) : Bool :=
  match cmd with
  | [] => false
  | c :: _ => ALLOW.contains c

/-! ### `shlex.split` (POSIX mode, whitespace_split), used by the webhook
exec dispatch -/

/-- Lexer state of the `shlex` model: outside quotes, inside `'...'`,
inside `"..."`. -/
inductive ShState
  | norm
  | inSingle
  | inDouble
  deriving DecidableEq

/-- `shlex.whitespace` is `" \t\r\n"`. -/
def isShWs (c : Char) : Bool := c = ' ' || c = '\t' || c = '\r' || c = '\n'

/-- One-pass model of `shlex.split` in POSIX mode: whitespace separates
tokens; single quotes are fully literal; inside double quotes a backslash
escapes only `"` and `\` (otherwise it stays literal); outside quotes a
backslash escapes any character.  Unterminated quotes and a trailing
backslash raise, as in the library. -/
def shlexGo : List Char → ShState → List Char → Bool → List (List Char) →
    Except String (List (List Char))
  | [], .norm, cur, hasTok, acc => .ok (if hasTok then acc ++ [cur] else acc)
  | [], .inSingle, _, _, _ => .error "No closing quotation"
  | [], .inDouble, _, _, _ => .error "No closing quotation"
  | c :: rest, .norm, cur, hasTok, acc =>
    if isShWs c then
      if hasTok then shlexGo rest .norm [] false (acc ++ [cur])
      else shlexGo rest .norm cur hasTok acc
    else if c = '\'' then shlexGo rest .inSingle cur true acc
    else if c = '"' then shlexGo rest .inDouble cur true acc
    else if c = '\\' then
      match rest with
      | [] => .error "No escaped character"
      | d :: rest2 => shlexGo rest2 .norm (cur ++ [d]) true acc
    else shlexGo rest .norm (cur ++ [c]) true acc
  | c :: rest, .inSingle, cur, hasTok, acc =>
    if c = '\'' then shlexGo rest .norm cur hasTok acc
    else shlexGo rest .inSingle (cur ++ [c]) hasTok acc
  | c :: rest, .inDouble, cur, hasTok, acc =>
    if c = '"' then shlexGo rest .norm cur hasTok acc
    else if c = '\\' then
      match rest with
      | [] => .error "No escaped character"
      | d :: rest2 =>
        if d = '"' ∨ d = '\\' then shlexGo rest2 .inDouble (cur ++ [d]) hasTok acc
        else shlexGo rest2 .inDouble (cur ++ ['\\', d]) hasTok acc
    else shlexGo rest .inDouble (cur ++ [c]) hasTok acc

/-- `shlex.split` on a string; `.error` models the `ValueError` the library
raises (uncaught by the webhook handler). -/
def shlexSplit (s : String) : Except String (List String) :=
  (shlexGo s.data .norm [] false []).map (fun ts => ts.map (fun t => (⟨t⟩ : String)))

/-! ### Job registry (the module-level `JOBS` dict) -/

/-- One `JOBS` entry.  The Python values are string-keyed dicts whose keys
vary by writer (`done_handler` writes only `status`; the exec branch writes
`status`, `cmd`, `chatId`), so every field is optional. -/
structure Job where
  status : Option String := none
  cmd : Option String := none
  chatId : Option String := none
  deriving DecidableEq

abbrev JobsMap := List (String × Job)

/-- `dict.get`: first binding of the key, scanning in insertion order. -/
def lookupKey {α : Type} : List (String × α) → String → Option α
  | [], _ => none
  | (k, v) :: rest, key => if k = key then some v else lookupKey rest key

/-- `dict[key] = v`: replace in place when the key exists, else append. -/
def setKey {α : Type} : List (String × α) → String → α → List (String × α)
  | [], key, v => [(key, v)]
  | (k, w) :: rest, key, v =>
    if k = key then (key, v) :: rest else (k, w) :: setKey rest key v

/-- `data.split("|", 1)`: split at the first separator; `none` models the
`ValueError` raised when the separator is absent (there is always at most
one split, so only the no-separator case raises in the source). -/
def splitOnce : List Char → Char → Option (List Char × List Char)
  | [], _ => none
  | c :: rest, sep =>
    if c = sep then some ([], rest)
    else
      match splitOnce rest sep with
      | some (a, b) => some (c :: a, b)
      | none => none

/-- Embedding of `done_handler` (src/orchestrator/app.py lines 132-138):
parse `"<jobId>|<rc>"`; on `ValueError` return with the registry unchanged;
otherwise `JOBS[job_id] = {**JOBS.get(job_id, {}), "status": f"exit-{rc}"}`. -/
def done_handler (jobs : JobsMap) (data : String) : JobsMap :=
  match splitOnce data.data '|' with
  | none => jobs
  | some (jid, rc) =>
    let j : Job := (lookupKey jobs ⟨jid⟩).getD {}
    setKey jobs ⟨jid⟩ { j with status := some ("exit-" ++ (⟨rc⟩ : String)) }

/-! ### Log flush loop (src/orchestrator/app.py lines 145-157) -/

abbrev TsMap := List (String × Int)

/-- `JOBS.get(job_id, {}).get("chatId")`. -/
def chatOf (jobs : JobsMap) (j : String) : Option String :=
  ((lookupKey jobs j).getD {}).chatId

/-- One iteration of the flush loop body for the snapshot entry
`(j, lines)`: returns the job's new buffer, the updated `LAST_SEND_TS`, and
the chat messages sent.  `if chat_id:` is Python truthiness, so an empty
chat id also suppresses the send. -/
def flushStep (now : Int) (jobs : JobsMap) (ts : TsMap) (j : String)
    (lines : List String) : List String × TsMap × List (String × String) :=
  let last : Int := (lookupKey ts j).getD 0
  if lines ≠ [] ∧ (2 ≤ now - last ∨ 12 ≤ lines.length) then
    let chunk := String.intercalate "\n" (lines.take 12)
    let sends :=
      match chatOf jobs j with
      | some c => if c.isEmpty then [] else [(c, "```" ++ chunk ++ "```")]
      | none => []
    (lines.drop 12, setKey ts j now, sends)
  else (lines, ts, [])

/-- One pass of `flush_loop` over the snapshot `list(LOG_BUFFERS.items())`:
the resulting buffer map (same keys, updated values), the updated
`LAST_SEND_TS`, and all sends in emission order. -/
def flushCycle (now : Int) (jobs : JobsMap) :
    List (String × List String) → TsMap →
    List (String × List String) × TsMap × List (String × String)
  | [], ts => ([], ts, [])
  | (j, lines) :: rest, ts =>
    let r := flushStep now jobs ts j lines
    let tail := flushCycle now jobs rest r.2.1
    ((j, r.1) :: tail.1, tail.2.1, r.2.2 ++ tail.2.2)

/-! ### Runner (src/runner/runner.py) -/

/-- Fields of an incoming job envelope the runner reads via `dict.get`. -/
structure Envelope where
  jobId : Option String := none
  cmd : Option (List String) := none
  cwd : Option String := none
  deriving DecidableEq

/-- An observable action of `exec_and_stream`: a bus publish or the spawn
of a child process. -/
inductive RunnerAction
  | publish (subject : String) (payload : String)
  | spawn (argv : List String) (cwd : Option String)
  deriving DecidableEq

/-- Embedding of `exec_and_stream` (src/runner/runner.py lines 21-28) up to
the spawn: the allowlist re-check and its rejection publishes.  A missing
`jobId` renders as `"None"` inside the f-strings.  The post-spawn streaming
is process I/O and is not modelled; the claims only concern the rejection
path, on which the function returns immediately after the two publishes. -/
def exec_and_stream (runnerId : String) (job : Envelope) : List RunnerAction :=
  let jid := job.jobId.getD "None"
  let cmd := (job.cmd.map (fun c => if c.isEmpty then [] else c)).getD []
  if !allowlisted cmd then
    [.publish ("runner." ++ runnerId ++ ".logs." ++ jid) "command not allowed",
     .publish ("runner." ++ runnerId ++ ".done") (jid ++ "|exit-126")]
  else
    [.spawn cmd job.cwd]

/-! ### Webhook exec dispatch (src/orchestrator/app.py lines 229-262) -/

/-- The envelope dict published to `runner.<host>.jobs` (the constant
`env={}` field is omitted). -/
structure OrchEnvelope where
  jobId : String
  runnerId : String
  cwd : Option String
  cmd : List String
  timeoutSec : Nat
  sandbox : String
  deriving DecidableEq

/-- Result of the exec branch: registry after, chat replies, bus publishes,
and the `ok` field of the HTTP response. -/
structure ExecOutcome where
  jobs : JobsMap
  replies : List (String × String)
  published : List (String × OrchEnvelope)
  ok : Bool
  deriving DecidableEq

/-- Embedding of the `action["type"] == "exec"` branch of `waha_webhook`:
`cmd_str = action.get("cmd") or ""`, strip whitespace then surrounding
quotes, `shlex.split`, allowlist gate, then either the rejection reply or
job creation (id `freshId` drawn from `uuid.uuid4().hex[:6]`), envelope
publish, and acknowledgment.  `.error` models the uncaught `ValueError`
from `shlex.split`. -/
def handleExec (jobs : JobsMap) (chatId host : String) (cmdOpt : Option String)
    (freshId : String) : Except String ExecOutcome :=
  let cmdStr : String :=
    match cmdOpt with
    | some c => if c.isEmpty then "" else c
    | none => ""
  let stripped : List Char := stripBy (fun ch => ch = '"') (pyStrip cmdStr.data)
  match shlexSplit ⟨stripped⟩ with
  | .error e => .error e
  | .ok cmd =>
    if !allowlisted cmd then
      .ok ⟨jobs, [(chatId, "Command not allowed.")], [], false⟩
    else
      let job : Job :=
        { status := some "running", cmd := some cmdStr, chatId := some chatId }
      .ok ⟨setKey jobs freshId job,
           [(chatId, "Queued job `" ++ freshId ++ "`: " ++ cmdStr)],
           [("runner." ++ host ++ ".jobs",
             ⟨freshId, host, none, cmd, 1800, "host"⟩)],
           true⟩

/-- The five recognized command keywords, lowered. -/
def KEYWORDS : List (List Char) :=
  ["/hosts".data, "/logs".data, "/stop".data, "/exec".data, "/run".data]

/-! ## Lemmas about the string helpers -/

theorem stripBackBy_eq_nil_all {w : Char → Bool} :
    ∀ {l : List Char}, stripBackBy w l = [] → ∀ x ∈ l, w x = true := by
  intro l
  induction l with
  | nil => intro _ x hx; cases hx
  | cons c cs ih =>
    intro h x hx
    rw [stripBackBy] at h
    cases hr : stripBackBy w cs with
    | nil =>
      rw [hr] at h
      simp only at h
      rcases List.mem_cons.mp hx with rfl | hx'
      · by_cases hw : w x = true
        · exact hw
        · rw [if_neg hw] at h; cases h
      · exact ih hr _ hx'
    | cons r rs =>
      rw [hr] at h
      simp only at h
      cases h

theorem takeWhile_nil_of_head {q : Char → Bool} :
    ∀ {l : List Char}, (∀ x ∈ l, q x = false) → l.takeWhile q = [] := by
  intro l h
  cases l with
  | nil => rfl
  | cons x t => simp [List.takeWhile_cons, h x (by simp)]

theorem takeWhile_stripBackBy {w q : Char → Bool}
    (hwq : ∀ c, w c = true → q c = false) :
    ∀ l : List Char, (stripBackBy w l).takeWhile q = l.takeWhile q := by
  intro l
  induction l with
  | nil => rfl
  | cons c cs ih =>
    rw [stripBackBy]
    cases hr : stripBackBy w cs with
    | nil =>
      have hcs : cs.takeWhile q = [] :=
        takeWhile_nil_of_head (fun x hx => hwq x (stripBackBy_eq_nil_all hr x hx))
      simp only
      by_cases hw : w c = true
      · simp [hw, List.takeWhile_cons, hwq c hw]
      · by_cases hq : q c = true <;>
          simp [hw, hq, List.takeWhile_cons, hcs]
    | cons r rs =>
      rw [hr] at ih
      have ih' := ih
      simp only [List.takeWhile_cons] at ih' ⊢
      by_cases hq : q c = true
      · simp [hq, ih']
      · simp [hq]

theorem takeWhile_congr_of_imp {p q : Char → Bool}
    (hqp : ∀ c, q c = true → p c = true) :
    ∀ l : List Char, (∀ c ∈ l.takeWhile p, q c = true) →
      l.takeWhile q = l.takeWhile p := by
  intro l
  induction l with
  | nil => intro _; rfl
  | cons c cs ih =>
    intro hall
    by_cases hp : p c = true
    · have hc : c ∈ (c :: cs).takeWhile p := by
        simp [List.takeWhile_cons, hp]
      have hq : q c = true := hall c hc
      simp only [List.takeWhile_cons, hp, hq, if_true]
      refine congrArg (c :: ·) (ih fun x hx => hall x ?_)
      simp [List.takeWhile_cons, hp, hx]
    · have hq : q c = false := by
        by_contra hne
        exact hp (hqp c (by revert hne; cases q c <;> simp))
      simp [List.takeWhile_cons, hp, hq]

theorem lowerChar_ws_fixed {c : Char} (h : isPyWs c = true) : lowerChar c = c := by
  simp only [isPyWs, Bool.or_eq_true, decide_eq_true_eq] at h
  rcases h with ((((h | h) | h) | h) | h) | h <;> subst h <;> decide

theorem not_ws_of_lower_mem {hd kw : List Char}
    (hkw : ∀ k ∈ kw, isPyWs k = false) (h : lowerL hd = kw) :
    ∀ c ∈ hd, isPyWs c = false := by
  intro c hc
  by_contra hne
  have hws : isPyWs c = true := by revert hne; cases isPyWs c <;> simp
  have hmem : lowerChar c ∈ kw := h ▸ List.mem_map_of_mem lowerChar hc
  have := hkw _ hmem
  rw [lowerChar_ws_fixed hws] at this
  rw [this] at hws
  cases hws

theorem firstTok_of_head {l kw : List Char}
    (hkw : ∀ k ∈ kw, isPyWs k = false)
    (h : lowerL (spaceHead (pyStrip l)) = kw) : lowerL (firstTok l) = kw := by
  unfold pyStrip stripBy at h
  unfold firstTok
  set d := l.dropWhile isPyWs with hd
  have h1 : (stripBackBy isPyWs d).takeWhile (fun c => !isPyWs c) =
      d.takeWhile (fun c => !isPyWs c) :=
    takeWhile_stripBackBy (fun c hc => by simp [hc]) d
  have h2 : (stripBackBy isPyWs d).takeWhile (fun c => !isPyWs c) =
      (stripBackBy isPyWs d).takeWhile (fun c => c != ' ') := by
    refine takeWhile_congr_of_imp (fun c hc => ?_) _ (fun c hc => ?_)
    · simp only [Bool.not_eq_true'] at hc
      have : c ≠ ' ' := by
        intro he; subst he; exact absurd hc (by decide)
      simpa using this
    · have hcm := not_ws_of_lower_mem hkw h c hc
      simp [hcm]
  rw [← h1, h2]
  exact h

/-! ## Lemmas about the association-list dictionaries -/

theorem setKey_of_lookup_none {α : Type} {k : String} (v : α) :
    ∀ {m : List (String × α)}, lookupKey m k = none → setKey m k v = m ++ [(k, v)] := by
  intro m
  induction m with
  | nil => intro _; rfl
  | cons p rest ih =>
    intro h
    obtain ⟨k', v'⟩ := p
    rw [lookupKey] at h
    by_cases hk : k' = k
    · rw [if_pos hk] at h; cases h
    · rw [if_neg hk] at h
      simp only [setKey, if_neg hk, List.cons_append]
      rw [ih h]

theorem setKey_keys_of_not_mem {α : Type} {k : String} (v : α) :
    ∀ (m : List (String × α)), k ∉ m.map Prod.fst →
      (setKey m k v).map Prod.fst = m.map Prod.fst ++ [k] := by
  intro m
  induction m with
  | nil => intro _; rfl
  | cons p rest ih =>
    intro h
    obtain ⟨k', v'⟩ := p
    simp only [List.map_cons, List.mem_cons] at h
    push_neg at h
    have hk : ¬ k' = k := fun he => h.1 he.symm
    simp only [setKey, if_neg hk, List.map_cons, List.cons_append]
    rw [ih h.2]

theorem setKey_keys_of_mem {α : Type} {k : String} (v : α) :
    ∀ (m : List (String × α)), k ∈ m.map Prod.fst →
      (setKey m k v).map Prod.fst = m.map Prod.fst := by
  intro m
  induction m with
  | nil => intro h; cases h
  | cons p rest ih =>
    intro h
    obtain ⟨k', v'⟩ := p
    by_cases hk : k' = k
    · simp [setKey, hk]
    · simp only [List.map_cons, List.mem_cons] at h
      rcases h with h | h
      · exact absurd h.symm hk
      · simp only [setKey, if_neg hk, List.map_cons]
        rw [ih h]

/-! ## Substring lemmas (used to show absence of a `cmd=` match) -/

theorem hasSubL_nil_pat : ∀ l : List Char, hasSubL [] l = true
  | [] => rfl
  | _ :: _ => by simp [hasSubL, startsWithL]

theorem startsWithL_append {b : List Char} :
    ∀ {l pat : List Char}, startsWithL l pat = true →
      startsWithL (l ++ b) pat = true := by
  intro l
  induction l with
  | nil =>
    intro pat h
    cases pat with
    | nil =>
      cases b with
      | nil => rfl
      | cons x xs => rfl
    | cons p ps => cases h
  | cons c cs ih =>
    intro pat h
    cases pat with
    | nil => rfl
    | cons p ps =>
      simp only [startsWithL, Bool.and_eq_true] at h
      simp only [List.cons_append, startsWithL, Bool.and_eq_true]
      exact ⟨h.1, ih h.2⟩

theorem hasSubL_append_left {pat b : List Char} :
    ∀ {a : List Char}, hasSubL pat a = true → hasSubL pat (a ++ b) = true := by
  intro a
  induction a with
  | nil =>
    intro h
    rw [hasSubL] at h
    have hp : pat = [] := by simpa using h
    subst hp
    exact hasSubL_nil_pat b
  | cons c cs ih =>
    intro h
    simp only [hasSubL, Bool.or_eq_true] at h
    simp only [List.cons_append, hasSubL, Bool.or_eq_true]
    rcases h with h | h
    · exact Or.inl (by simpa using startsWithL_append (b := b) h)
    · exact Or.inr (ih h)

theorem hasSubL_dropWhile {pat : List Char} {w : Char → Bool} :
    ∀ {l : List Char}, hasSubL pat (l.dropWhile w) = true → hasSubL pat l = true := by
  intro l
  induction l with
  | nil => intro h; simpa using h
  | cons c cs ih =>
    intro h
    by_cases hw : w c = true
    · rw [List.dropWhile_cons, if_pos hw] at h
      simp only [hasSubL, Bool.or_eq_true]
      exact Or.inr (ih h)
    · rwa [List.dropWhile_cons, if_neg hw] at h

theorem stripBackBy_append (w : Char → Bool) :
    ∀ l : List Char, ∃ t, l = stripBackBy w l ++ t := by
  intro l
  induction l with
  | nil => exact ⟨[], rfl⟩
  | cons c cs ih =>
    obtain ⟨t, ht⟩ := ih
    rw [stripBackBy]
    cases hr : stripBackBy w cs with
    | nil =>
      by_cases hw : w c = true
      · exact ⟨c :: cs, by simp [hw]⟩
      · exact ⟨cs, by simp [hw]⟩
    | cons r rs =>
      rw [hr] at ht
      exact ⟨t, by simpa using ht⟩

theorem hasSubL_pyStrip {pat l : List Char} (h : hasSubL pat l = false) :
    hasSubL pat (pyStrip l) = false := by
  by_contra hne
  have htrue : hasSubL pat (pyStrip l) = true := by
    revert hne; cases hasSubL pat (pyStrip l) <;> simp
  unfold pyStrip stripBy at htrue
  obtain ⟨t, ht⟩ := stripBackBy_append isPyWs (l.dropWhile isPyWs)
  have h2 : hasSubL pat (l.dropWhile isPyWs) = true := by
    rw [ht]; exact hasSubL_append_left htrue
  have h3 := hasSubL_dropWhile h2
  rw [h3] at h
  cases h

theorem findCmd_none_of_no_sub :
    ∀ {l : List Char}, hasSubL "cmd=".data l = false → findCmd l = none := by
  intro l
  induction l with
  | nil => intro _; rfl
  | cons c cs ih =>
    intro h
    rw [hasSubL, Bool.or_eq_false_iff] at h
    rw [findCmd, if_neg (by simp [h.1])]
    exact ih h.2

/-! ## Lemmas about the quoted `cmd=` capture -/

theorem all_takeWhile_self (p : Char → Bool) :
    ∀ l : List Char, (l.takeWhile p).all p = true := by
  intro l
  rw [List.all_eq_true]
  intro x hx
  exact List.mem_takeWhile_imp hx

theorem tryQuoted_no_quote :
    ∀ {a content : List Char}, tryQuoted a = some content →
      content.all (fun ch => ch != '"') = true := by
  intro a content h
  unfold tryQuoted at h
  split at h
  · dsimp only at h
    split at h
    · split at h
      · injection h with h'
        subst h'
        exact all_takeWhile_self _ _
      · cases h
    · cases h
  · cases h

theorem findCmd_quoted_all :
    ∀ {l content : List Char}, findCmd l = some (CmdCap.quoted content) →
      content.all (fun ch => ch != '"') = true := by
  intro l
  induction l with
  | nil => intro content h; cases h
  | cons c cs ih =>
    intro content h
    rw [findCmd] at h
    by_cases hs : startsWithL (c :: cs) "cmd=".data = true
    · rw [if_pos hs] at h
      cases hq : tryQuoted ((c :: cs).drop 4) with
      | some q =>
        rw [hq] at h
        simp only [Option.some.injEq, CmdCap.quoted.injEq] at h
        subst h
        exact tryQuoted_no_quote hq
      | none =>
        rw [hq] at h
        simp only at h
        cases hr : tryRaw ((c :: cs).drop 4) with
        | some r => rw [hr] at h; simp at h
        | none => rw [hr] at h; exact ih h
    · rw [if_neg hs] at h
      exact ih h

/-! ## Lemmas about the flush loop -/

theorem flushStep_sends_nil_of_chat_none {now : Int} {jobs : JobsMap} {ts : TsMap}
    {j : String} {ls : List String} (hch : chatOf jobs j = none) :
    (flushStep now jobs ts j ls).2.2 = [] := by
  unfold flushStep
  dsimp only
  rw [hch]
  by_cases hcond : ls ≠ [] ∧ (2 ≤ now - (lookupKey ts j).getD 0 ∨ 12 ≤ ls.length)
  · rw [if_pos hcond]
  · rw [if_neg hcond]

theorem flushCycle_sends_nil {now : Int} {jobs : JobsMap} :
    ∀ (bufs : List (String × List String)) (ts : TsMap),
      (∀ p ∈ bufs, chatOf jobs p.1 = none) →
      (flushCycle now jobs bufs ts).2.2 = [] := by
  intro bufs
  induction bufs with
  | nil => intro ts _; rfl
  | cons p rest ih =>
    intro ts h
    obtain ⟨j, ls⟩ := p
    rw [flushCycle]
    simp only
    rw [flushStep_sends_nil_of_chat_none (h (j, ls) (by simp))]
    rw [ih _ (fun q hq => h q (List.mem_cons_of_mem _ hq))]
    rfl

/-! ## Claims -/

/-- C1: on an envelope whose cmd head is not allowlisted, the runner
publishes exactly one log chunk "command not allowed" and exactly one
completion notice and spawns no child process — but the completion payload's
field after the `|` separator is the string "exit-126", not "126" as the
protocol `"<jobId>|<exitCode>"` (used by the success path and consumed by
`done_handler`, which prefixes `exit-` again) requires. -/
theorem runner_rejection_publishes :
    exec_and_stream "dev" { jobId := some "j1", cmd := some ["rm", "-rf", "/"] } =
      [.publish "runner.dev.logs.j1" "command not allowed",
       .publish "runner.dev.done" "j1|exit-126"]
    ∧ splitOnce "j1|exit-126".data '|' = some ("j1".data, "exit-126".data)
    ∧ ("exit-126" : String) ≠ "126" := by
  refine ⟨by decide, by decide, by decide⟩

/-- C2 counterexample: a completion notice for a jobId absent from the
registry creates a fresh registry entry — the set of registered ids grows. -/
theorem markDone_unknown_creates_entry_cex :
    done_handler [] "ab12|0" = [("ab12", { status := some "exit-0" })]
    ∧ (done_handler [] "ab12|0").map Prod.fst ≠ ([] : JobsMap).map Prod.fst := by
  refine ⟨by decide, by decide⟩

/-- C2 (amended): processing a completion notice never raises: a payload
without `|` leaves the registry unchanged, and a payload `jid|rc` whose jid
is unknown appends a fresh entry with status `exit-rc` (rather than being a
no-op). -/
theorem markDone_unknown_upserts (jobs : JobsMap) (d : String) :
    (splitOnce d.data '|' = none → done_handler jobs d = jobs)
    ∧ (∀ jid rc : String,
        splitOnce d.data '|' = some (jid.data, rc.data) →
        lookupKey jobs jid = none →
        done_handler jobs d =
          jobs ++ [(jid, { status := some ("exit-" ++ rc) })]) := by
  constructor
  · intro h
    unfold done_handler
    rw [h]
  · intro jid rc hsplit hmem
    have hd : done_handler jobs d =
        setKey jobs jid { status := some ("exit-" ++ rc) } := by
      unfold done_handler
      rw [hsplit]
      dsimp only
      show setKey jobs jid
          { (lookupKey jobs jid).getD {} with status := some ("exit-" ++ rc) } = _
      rw [hmem]
      rfl
    rw [hd]
    exact setKey_of_lookup_none _ hmem

theorem markDone_unknown_upserts_witness :
    done_handler [("x", { status := some "running" })] "yy|7" =
      [("x", { status := some "running" }), ("yy", { status := some "exit-7" })]
    ∧ done_handler [("x", { status := some "running" })] "nope" =
      [("x", { status := some "running" })] := by
  have h := markDone_unknown_upserts [("x", { status := some "running" })] "yy|7"
  have h2 := markDone_unknown_upserts [("x", { status := some "running" })] "nope"
  exact ⟨(h.2 "yy" "7" (by decide) (by decide)).trans (by decide), h2.1 (by decide)⟩

/-- C3: a single flush cycle over one job whose buffer holds 15 lines, with
a resolvable owning conversation and no prior flush, sends exactly one chat
message containing the first 12 lines joined by newlines in order, leaves
the remaining 3 lines buffered in order, and resets the job's last-flush
timestamp to the cycle time. -/
theorem flush_fifteen_lines (now : Int) (jobs : JobsMap) (j c : String)
    (ls : List String) (hlen : ls.length = 15)
    (hchat : chatOf jobs j = some c) (hc : c.isEmpty = false) :
    flushCycle now jobs [(j, ls)] [] =
      ([(j, ls.drop 12)], [(j, now)],
        [(c, "```" ++ String.intercalate "\n" (ls.take 12) ++ "```")])
    ∧ (ls.drop 12).length = 3 := by
  have hne : ls ≠ [] := by
    intro hnil; rw [hnil] at hlen; cases hlen
  have hstep : flushStep now jobs [] j ls =
      (ls.drop 12, [(j, now)],
        [(c, "```" ++ String.intercalate "\n" (ls.take 12) ++ "```")]) := by
    unfold flushStep
    dsimp only
    rw [hchat]
    rw [if_pos ⟨hne, Or.inr (by rw [hlen]; omega)⟩]
    simp [hc, setKey]
  constructor
  · simp [flushCycle, hstep]
  · simp [List.length_drop, hlen]

theorem flush_fifteen_lines_witness :
    flushCycle 100 [("j", { chatId := some "ch" })]
      [("j", ["a", "b", "c", "d", "e", "f", "g", "h", "i", "j", "k", "l",
              "m", "n", "o"])] [] =
      ([("j", ["m", "n", "o"])], [("j", 100)],
        [("ch", "```a\nb\nc\nd\ne\nf\ng\nh\ni\nj\nk\nl```")]) := by
  have h := (flush_fifteen_lines 100 [("j", { chatId := some "ch" })] "j" "ch"
      ["a", "b", "c", "d", "e", "f", "g", "h", "i", "j", "k", "l", "m", "n", "o"]
      (by decide) (by decide) (by decide)).1
  exact h.trans (by decide)

/-- C4 counterexample: a job with a non-empty buffer and no resolvable
conversation: the cycle performs no send, but the buffered line is removed
and discarded rather than retained — the buffer comes back empty, not with
its original content. -/
theorem flush_unresolved_retention_cex :
    flushCycle 5 [] [("j1", ["line1"])] [] = ([("j1", [])], [("j1", 5)], [])
    ∧ ([("j1", ([] : List String))] : List (String × List String)) ≠
        [("j1", ["line1"])] := by
  refine ⟨by decide, by decide⟩

/-- C4 (amended): when a job's buffer is non-empty, its conversation is
unresolvable, and the flush condition fires, the cycle performs no send for
that job but still removes the head 12 lines from its buffer (discarding
them) and resets the last-flush timestamp; and a cycle over any buffer map
whose jobs all lack resolvable conversations performs no sends at all. -/
theorem flush_unresolved_no_send (now : Int) (jobs : JobsMap) (ts : TsMap)
    (j : String) (ls : List String) (hch : chatOf jobs j = none) (hne : ls ≠ [])
    (hfire : 2 ≤ now - (lookupKey ts j).getD 0 ∨ 12 ≤ ls.length) :
    flushStep now jobs ts j ls = (ls.drop 12, setKey ts j now, [])
    ∧ ∀ (bufs : List (String × List String)) (ts' : TsMap),
        (∀ p ∈ bufs, chatOf jobs p.1 = none) →
        (flushCycle now jobs bufs ts').2.2 = [] := by
  refine ⟨?_, fun bufs ts' hall => flushCycle_sends_nil bufs ts' hall⟩
  unfold flushStep
  dsimp only
  rw [hch, if_pos ⟨hne, hfire⟩]

theorem flush_unresolved_no_send_witness :
    flushStep 5 [] [] "j1" ["line1"] = (([] : List String), [("j1", 5)], [])
    ∧ (flushCycle 5 [] [("j1", ["line1"])] []).2.2 = [] := by
  have h := flush_unresolved_no_send 5 [] [] "j1" ["line1"] (by decide) (by decide)
      (by decide)
  exact ⟨h.1.trans (by decide), h.2 [("j1", ["line1"])] [] (by decide)⟩

/-- C5: `parse_command` is a total function returning exactly one variant;
the empty string, whitespace-only strings, and strings whose first
whitespace-delimited token does not lower to a recognized command keyword
all parse to `Noop`. -/
theorem parse_total_and_noop_cases :
    (∀ s : String, ∃! c : Command, parse_command s = c)
    ∧ parse_command "" = .noop
    ∧ (∀ s : String, s.data.all isPyWs = true → parse_command s = .noop)
    ∧ (∀ s : String, lowerL (firstTok s.data) ∉ KEYWORDS →
        parse_command s = .noop) := by
  refine ⟨fun s => ⟨parse_command s, rfl, fun y hy => hy.symm⟩, rfl,
    fun s h => ?_, fun s h => ?_⟩
  · have hstrip : pyStrip s.data = [] := by
      unfold pyStrip stripBy
      rw [List.dropWhile_eq_nil_iff.mpr
        (fun x hx => by simpa using List.all_eq_true.mp h x hx)]
      rfl
    unfold parse_command
    rw [hstrip]
    rfl
  · unfold parse_command
    dsimp only
    by_cases h0 : (pyStrip s.data).isEmpty = true
    · rw [if_pos h0]
    · rw [if_neg h0]
      have hkw : ∀ kw ∈ KEYWORDS, ¬ lowerL (spaceHead (pyStrip s.data)) = kw := by
        intro kw hkwmem heq
        have hws : ∀ k ∈ kw, isPyWs k = false := by
          fin_cases hkwmem <;> decide
        exact h (by rw [firstTok_of_head hws heq]; exact hkwmem)
      rw [if_neg (hkw "/hosts".data (by simp [KEYWORDS]))]
      rw [if_neg (hkw "/logs".data (by simp [KEYWORDS]))]
      rw [if_neg (hkw "/stop".data (by simp [KEYWORDS]))]
      rw [if_neg (hkw "/exec".data (by simp [KEYWORDS]))]
      rw [if_neg (hkw "/run".data (by simp [KEYWORDS]))]

theorem parse_total_and_noop_cases_witness :
    parse_command "  \t " = .noop ∧ parse_command "hello world" = .noop :=
  ⟨parse_total_and_noop_cases.2.2.1 "  \t " (by decide),
   parse_total_and_noop_cases.2.2.2 "hello world" (by decide)⟩

/-- C6: the allowlist gate rejects the empty argv; on a non-empty argv it
tests exactly membership of argv head in the configured set, ignoring all
later elements; under the default set `["git","log"]` passes and
`["rm","-rf","/"]` does not. -/
theorem allowlist_gate_contract :
    allowlisted [] = false
    ∧ (∀ (x : String) (xs : List String), allowlisted (x :: xs) = ALLOW.contains x)
    ∧ allowlisted ["git", "log"] = true
    ∧ allowlisted ["rm", "-rf", "/"] = false := by
  exact ⟨rfl, fun x xs => rfl, by decide, by decide⟩

/-- C7: `/exec host=h1 cmd="git status"` parses to an exec command with
host `h1` and command string `git status`, and the dispatch path
(strip whitespace, strip surrounding quotes, `shlex.split`) turns that
string into the argv vector `["git","status"]` placed in the published
envelope. -/
theorem exec_git_status_parses :
    parse_command "/exec host=h1 cmd=\"git status\"" =
      .exec "h1" (some "git status")
    ∧ handleExec [] "chat@c" "h1" (some "git status") "abc123" =
        .ok ⟨[("abc123", { status := some "running", cmd := some "git status",
                           chatId := some "chat@c" })],
             [("chat@c", "Queued job `abc123`: git status")],
             [("runner.h1.jobs",
               ⟨"abc123", "h1", none, ["git", "status"], 1800, "host"⟩)],
             true⟩ := by
  refine ⟨by decide, rfl⟩

/-- C8 counterexample: with `host=` lying inside the quoted `cmd=` value,
the extracted host is `h1"` — it ends with a double quote taken from the
quoted clause, so a parsed field does contain an unmatched quote. -/
theorem parse_partial_quote_cex :
    parse_command "/exec cmd=\"git log host=h1\"" =
      .exec "h1\"" (some "git log host=h1")
    ∧ ("h1\"" : String).data.getLast? = some '"' := by
  refine ⟨by decide, by decide⟩

/-- C8 (amended): a `cmd=` value captured through the quoted alternative
never contains a double-quote character, but the host field receives no
quote-stripping: it is the raw maximal non-whitespace run after `host=`
and can end with a `"` taken from an adjacent quoted clause. -/
theorem quoted_cmd_capture_no_quote :
    (∀ l content : List Char, findCmd l = some (CmdCap.quoted content) →
        content.all (fun ch => ch != '"') = true)
    ∧ parse_command "/exec cmd=\"x host=h9\"" = .exec "h9\"" (some "x host=h9") := by
  exact ⟨fun l content h => findCmd_quoted_all h, by decide⟩

theorem quoted_cmd_capture_no_quote_witness :
    ("ab".data.all (fun ch => ch != '"')) = true :=
  quoted_cmd_capture_no_quote.1 "cmd=\"ab\"".data "ab".data (by decide)

/-- C9 counterexample: job ids come from an external generator
(`uuid.uuid4().hex[:6]`) with no freshness check: when the generator
repeats `aaaaaa`, the second create returns an id already present in the
registry and silently overwrites the existing entry. -/
theorem create_duplicate_id_cex :
    handleExec [] "chat@c" "dev" (some "git log") "aaaaaa" =
      .ok ⟨[("aaaaaa", { status := some "running", cmd := some "git log",
                         chatId := some "chat@c" })],
           [("chat@c", "Queued job `aaaaaa`: git log")],
           [("runner.dev.jobs", ⟨"aaaaaa", "dev", none, ["git", "log"], 1800, "host"⟩)],
           true⟩
    ∧ "aaaaaa" ∈ ([("aaaaaa", ({ status := some "running", cmd := some "git log",
                                 chatId := some "chat@c" } : Job))]).map Prod.fst
    ∧ handleExec [("aaaaaa", { status := some "running", cmd := some "git log",
                               chatId := some "chat@c" })]
        "chat@c" "dev" (some "git log") "aaaaaa" =
      .ok ⟨[("aaaaaa", { status := some "running", cmd := some "git log",
                         chatId := some "chat@c" })],
           [("chat@c", "Queued job `aaaaaa`: git log")],
           [("runner.dev.jobs", ⟨"aaaaaa", "dev", none, ["git", "log"], 1800, "host"⟩)],
           true⟩ := by
  refine ⟨rfl, by decide, rfl⟩

/-- C9 (amended): create inserts the externally generated id with no
distinctness check: the result registry is a plain dict assignment; a fresh
generator output appends a new key, while a repeated output leaves the key
set unchanged (overwriting the existing entry) — uniqueness holds only as
long as the truncated generator never repeats. -/
theorem create_no_freshness_check (jobs : JobsMap) (chat fid : String) :
    handleExec jobs chat "dev" (some "git log") fid =
      .ok ⟨setKey jobs fid ({ status := some "running", cmd := some "git log",
                              chatId := some chat }),
           [(chat, "Queued job `" ++ fid ++ "`: " ++ "git log")],
           [("runner.dev.jobs", ⟨fid, "dev", none, ["git", "log"], 1800, "host"⟩)],
           true⟩
    ∧ (fid ∉ jobs.map Prod.fst →
        (setKey jobs fid ({ status := some "running", cmd := some "git log",
                            chatId := some chat })).map Prod.fst =
          jobs.map Prod.fst ++ [fid])
    ∧ (fid ∈ jobs.map Prod.fst →
        (setKey jobs fid ({ status := some "running", cmd := some "git log",
                            chatId := some chat })).map Prod.fst =
          jobs.map Prod.fst) := by
  refine ⟨by rfl, fun h => setKey_keys_of_not_mem _ _ h, fun h => setKey_keys_of_mem _ _ h⟩

theorem create_no_freshness_check_witness :
    handleExec [("bbbbbb", { status := some "running" })] "chat@c" "dev"
        (some "git log") "aaaaaa" =
      .ok ⟨[("bbbbbb", ({ status := some "running" } : Job)),
            ("aaaaaa", ({ status := some "running", cmd := some "git log",
                          chatId := some "chat@c" } : Job))],
           [("chat@c", "Queued job `aaaaaa`: git log")],
           [("runner.dev.jobs", ⟨"aaaaaa", "dev", none, ["git", "log"], 1800, "host"⟩)],
           true⟩
    ∧ (setKey [("bbbbbb", ({ status := some "running" } : Job))] "aaaaaa"
        ({ status := some "running", cmd := some "git log",
           chatId := some "chat@c" })).map Prod.fst = ["bbbbbb", "aaaaaa"] := by
  have h := create_no_freshness_check [("bbbbbb", { status := some "running" })]
      "chat@c" "aaaaaa"
  exact ⟨h.1.trans rfl, (h.2.1 (by decide)).trans (by decide)⟩

/-- C10 counterexample: `/exec<TAB>ls` has first whitespace-delimited token
`/exec` and no `cmd=` occurrence, yet parses to `Noop`, not to an exec
command — the parser splits the head at the first space only
(`partition(" ")`), not at arbitrary whitespace. -/
theorem exec_tab_token_cex :
    parse_command "/exec\tls" = .noop
    ∧ firstTok "/exec\tls".data = "/exec".data
    ∧ hasSubL "cmd=".data "/exec\tls".data = false
    ∧ Command.noop ≠ Command.exec "dev" none := by
  refine ⟨by decide, by decide, by decide, by decide⟩

/-- C10 (amended): for every input whose space-delimited head (the text
before the first space of the stripped input) lowers to `/exec` and which
contains no `cmd=` occurrence, parse returns an exec command with an absent
command string; the control node's exec branch then treats it as the empty
argv, replies "Command not allowed.", and creates no job. -/
theorem exec_without_cmd_rejected (s : String) (jobs : JobsMap) (chat fid : String)
    (hhead : lowerL (spaceHead (pyStrip s.data)) = "/exec".data)
    (hnocmd : hasSubL "cmd=".data s.data = false) :
    parse_command s =
      .exec ⟨(findHost (pyStrip s.data)).getD "dev".data⟩ none
    ∧ handleExec jobs chat ⟨(findHost (pyStrip s.data)).getD "dev".data⟩ none fid =
        .ok ⟨jobs, [(chat, "Command not allowed.")], [], false⟩ := by
  constructor
  · unfold parse_command
    dsimp only
    have h0 : ¬ (pyStrip s.data).isEmpty = true := by
      intro hemp
      have hnil : pyStrip s.data = [] := by
        simpa [List.isEmpty_iff] using hemp
      rw [hnil] at hhead
      cases hhead
    rw [if_neg h0]
    rw [hhead]
    rw [if_neg (by decide : ¬ ("/exec".data = "/hosts".data))]
    rw [if_neg (by decide : ¬ ("/exec".data = "/logs".data))]
    rw [if_neg (by decide : ¬ ("/exec".data = "/stop".data))]
    rw [if_pos (rfl : "/exec".data = "/exec".data)]
    rw [findCmd_none_of_no_sub (hasSubL_pyStrip hnocmd)]
    rfl
  · rfl

theorem exec_without_cmd_rejected_witness :
    parse_command "/exec foo" = .exec "dev" none
    ∧ handleExec [] "chat@c" "dev" none "abc123" =
        .ok ⟨[], [("chat@c", "Command not allowed.")], [], false⟩ := by
  have h := exec_without_cmd_rejected "/exec foo" [] "chat@c" "abc123"
      (by decide) (by decide)
  exact ⟨h.1.trans (by decide), h.2⟩

end Waha
